import Mathlib

/-!
Verification of the refaudit core (main.go) against its specification.

The Go source is shallowly embedded: pure fragments become Lean functions,
the AST visitors become structural recursions over a model of the go/ast
node shapes they dispatch on, and the concurrent walk/parse pipeline is
modelled by its sequential observable behaviour (the channel delivers file
paths in walk order and the consumer stops at the first callback error).
Machine-level concerns (I/O errors, OS signals, context cancellation
timing) are outside the embedding and are noted where relevant.
-/

/- ===== String helpers mirroring the Go standard-library calls used ===== -/

/-- Model of `string(filepath.Separator)` on the POSIX platforms the tool
targets (the constant `fsep` in main.go). -/
def fsep : String := "/"

/-- Model of `strings.TrimSuffix(s, fsep)`: removes one trailing separator
if present (the separator is a single character). -/
def trimSep (s : String) : String :=
  match s.data.getLast? with
  | some c => if c = '/' then String.mk s.data.dropLast else s
  | none => s

/-- Model of `strings.Contains(s, sub)`: `sub` occurs contiguously in `s`. -/
def containsStr (s sub : String) : Bool :=
  decide (sub.data <:+: s.data)

/-- Model of `strings.HasSuffix(s, suffix)`. -/
def hasSuffixStr (s suffix : String) : Bool :=
  suffix.data.isSuffixOf s.data

/-- Model of `strings.Trim(s, "\"")`: strips all leading and trailing
double-quote characters. -/
def trimQuotes (s : String) : String :=
  String.mk (((s.data.dropWhile (fun c => c = '"')).reverse.dropWhile (fun c => c = '"')).reverse)

/-- Model of `ast.Ident.IsExported`, i.e. `token.IsExported`: the first
character of the name is an upper-case letter.  The Go original uses the
Unicode upper-case classes; identifiers in scope here are ASCII, for which
`Char.isUpper` agrees. -/
def isExportedName (s : String) : Bool :=
  match s.data with
  | [] => false
  | c :: _ => c.isUpper

/- ===== The report (main.go lines 33-37 and 96-110) ===== -/

/-- The `Report` struct of main.go. -/
@[ext] structure Report where
  Exported : List String
  Imported : List String
  UnusedExports : List String
deriving DecidableEq, Repr

/-- Model of `sortedInsert` (main.go lines 121-132).  The Go code computes
`i := sort.Search(len(list), func(i int) bool { return list[i] >= elem })`
and splices `elem` in at index `i`.  On the sorted lists this function is
invoked with, the search predicate is monotone, so `sort.Search` returns
the first index at which the predicate holds; the model computes that
first-true index directly.  Go compares strings byte-lexicographically,
which agrees with the `String` order used here on the ASCII data in
scope. -/
def sortedInsert (list : List String) (elem : String) : List String :=
  let i := (list.takeWhile (fun x => decide (x < elem))).length
  list.take i ++ elem :: list.drop i

/-- One iteration of the `for k := range globals` loop of main (lines
101-107): `k` is inserted into `Exported`, and into `UnusedExports` when
it is not a key of the `refs` map. -/
def reportStep (refs : List String) (rpt : Report) (k : String) : Report :=
  let rpt2 : Report := { rpt with Exported := sortedInsert rpt.Exported k }
  if k ∈ refs then rpt2
  else { rpt2 with UnusedExports := sortedInsert rpt2.UnusedExports k }

/-- Model of the report construction in main (lines 96-110).  The key sets
of the Go maps `globals` and `refs` are modelled as duplicate-free lists
in an arbitrary iteration order. -/
def buildReport (globals refs : List String) : Report :=
  let rpt0 : Report := { Exported := [], Imported := [], UnusedExports := [] }
  let rpt1 := globals.foldl (reportStep refs) rpt0
  { rpt1 with Imported := refs.foldl sortedInsert rpt1.Imported }

/- ===== Lemmas about sortedInsert ===== -/

theorem take_length_takeWhile (p : String → Bool) (l : List String) :
    l.take (l.takeWhile p).length = l.takeWhile p := by
  induction l with
  | nil => rfl
  | cons x xs ih =>
    by_cases h : p x = true
    · simp [List.takeWhile_cons, h, ih]
    · simp [List.takeWhile_cons, h]

theorem drop_length_takeWhile (p : String → Bool) (l : List String) :
    l.drop (l.takeWhile p).length = l.dropWhile p := by
  induction l with
  | nil => rfl
  | cons x xs ih =>
    by_cases h : p x = true
    · simp [List.takeWhile_cons, List.dropWhile_cons, h, ih]
    · simp [List.takeWhile_cons, List.dropWhile_cons, h]

/-- Recursive characterisation of `sortedInsert`. -/
theorem sortedInsert_cons (x : String) (l : List String) (e : String) :
    sortedInsert (x :: l) e =
      if x < e then x :: sortedInsert l e else e :: x :: l := by
  by_cases h : x < e
  · have h2 : x.data < e.data := String.lt_iff_toList_lt.mp h
    simp [sortedInsert, List.takeWhile_cons, h, h2]
  · have h2 : ¬ x.data < e.data := fun hl => h (String.lt_iff_toList_lt.mpr hl)
    simp [sortedInsert, List.takeWhile_cons, h, h2]

theorem sortedInsert_nil (e : String) : sortedInsert [] e = [e] := rfl

theorem sortedInsert_perm (l : List String) (e : String) :
    (sortedInsert l e).Perm (e :: l) := by
  induction l with
  | nil => simp [sortedInsert_nil]
  | cons x xs ih =>
    rw [sortedInsert_cons]
    by_cases h : x < e
    · rw [if_pos h]
      exact (ih.cons x).trans (List.Perm.swap e x xs)
    · rw [if_neg h]

theorem sortedInsert_mem (l : List String) (e x : String) :
    x ∈ sortedInsert l e ↔ x = e ∨ x ∈ l := by
  rw [(sortedInsert_perm l e).mem_iff]
  simp

theorem sortedInsert_sorted (l : List String) (e : String)
    (hl : l.Sorted (· < ·)) (he : e ∉ l) :
    (sortedInsert l e).Sorted (· < ·) := by
  induction l with
  | nil => simp [sortedInsert_nil]
  | cons x xs ih =>
    rw [sortedInsert_cons]
    rw [List.sorted_cons] at hl
    by_cases h : x < e
    · simp only [if_pos h]
      rw [List.sorted_cons]
      refine ⟨?_, ih hl.2 (fun hx => he (List.mem_cons_of_mem x hx))⟩
      intro b hb
      rcases (sortedInsert_mem xs e b).mp hb with hb | hb
      · exact hb ▸ h
      · exact hl.1 b hb
    · simp only [if_neg h]
      have hne : e ≠ x := by
        intro hex
        exact he (hex ▸ List.mem_cons_self e xs)
      have hex : e < x := lt_of_le_of_ne (not_lt.mp h) hne
      rw [List.sorted_cons]
      refine ⟨?_, List.sorted_cons.mpr hl⟩
      intro b hb
      rcases List.mem_cons.mp hb with hb | hb
      · exact hb ▸ hex
      · exact lt_trans hex (hl.1 b hb)

theorem foldl_sortedInsert_perm (xs l : List String) :
    (xs.foldl sortedInsert l).Perm (l ++ xs) := by
  induction xs generalizing l with
  | nil => simp
  | cons x xs ih =>
    have h1 : (xs.foldl sortedInsert (sortedInsert l x)).Perm (sortedInsert l x ++ xs) := ih _
    have h2 : (sortedInsert l x ++ xs).Perm ((x :: l) ++ xs) :=
      (sortedInsert_perm l x).append_right xs
    have h3 : ((x :: l) ++ xs).Perm (l ++ x :: xs) := by
      simpa using List.perm_middle.symm
    simpa using (h1.trans h2).trans h3

theorem foldl_sortedInsert_sorted (xs l : List String)
    (hl : l.Sorted (· < ·)) (hnd : (l ++ xs).Nodup) :
    (xs.foldl sortedInsert l).Sorted (· < ·) := by
  induction xs generalizing l with
  | nil => simpa using hl
  | cons x xs ih =>
    have hx : x ∉ l := by
      intro hx
      have := List.disjoint_of_nodup_append hnd
      exact this hx (List.mem_cons_self x xs)
    have hsort := sortedInsert_sorted l x hl hx
    have hperm : (sortedInsert l x ++ xs).Perm (l ++ x :: xs) := by
      have h2 : (sortedInsert l x ++ xs).Perm ((x :: l) ++ xs) :=
        (sortedInsert_perm l x).append_right xs
      have h3 : ((x :: l) ++ xs).Perm (l ++ x :: xs) := by
        simpa using List.perm_middle.symm
      exact h2.trans h3
    exact ih (sortedInsert l x) hsort (hperm.nodup_iff.mpr hnd)

/- ===== Report field characterisations ===== -/

theorem foldl_reportStep_exported (refs gs : List String) (rpt : Report) :
    (gs.foldl (reportStep refs) rpt).Exported = gs.foldl sortedInsert rpt.Exported := by
  induction gs generalizing rpt with
  | nil => rfl
  | cons g gs ih =>
    simp only [List.foldl_cons, ih]
    by_cases h : g ∈ refs <;> simp [reportStep, h]

theorem foldl_reportStep_unused (refs gs : List String) (rpt : Report) :
    (gs.foldl (reportStep refs) rpt).UnusedExports =
      (gs.filter (fun k => decide (k ∉ refs))).foldl sortedInsert rpt.UnusedExports := by
  induction gs generalizing rpt with
  | nil => rfl
  | cons g gs ih =>
    simp only [List.foldl_cons, ih]
    by_cases h : g ∈ refs <;> simp [reportStep, h, List.filter_cons]

theorem foldl_reportStep_imported (refs gs : List String) (rpt : Report) :
    (gs.foldl (reportStep refs) rpt).Imported = rpt.Imported := by
  induction gs generalizing rpt with
  | nil => rfl
  | cons g gs ih =>
    simp only [List.foldl_cons, ih]
    by_cases h : g ∈ refs <;> simp [reportStep, h]

theorem buildReport_exported (globals refs : List String) :
    (buildReport globals refs).Exported = globals.foldl sortedInsert [] := by
  simp [buildReport, foldl_reportStep_exported]

theorem buildReport_unused (globals refs : List String) :
    (buildReport globals refs).UnusedExports =
      (globals.filter (fun k => decide (k ∉ refs))).foldl sortedInsert [] := by
  simp [buildReport, foldl_reportStep_unused]

theorem buildReport_imported (globals refs : List String) :
    (buildReport globals refs).Imported = refs.foldl sortedInsert [] := by
  simp [buildReport, foldl_reportStep_imported]

theorem foldl_sortedInsert_eq_of_perm (xs ys : List String)
    (h : xs.Perm ys) (hx : xs.Nodup) :
    xs.foldl sortedInsert [] = ys.foldl sortedInsert [] := by
  have hy : ys.Nodup := h.nodup_iff.mp hx
  have p1 : (xs.foldl sortedInsert []).Perm xs := by
    simpa using foldl_sortedInsert_perm xs []
  have p2 : (ys.foldl sortedInsert []).Perm ys := by
    simpa using foldl_sortedInsert_perm ys []
  have s1 : (xs.foldl sortedInsert []).Sorted (· < ·) :=
    foldl_sortedInsert_sorted xs [] (by simp) (by simpa using hx)
  have s2 : (ys.foldl sortedInsert []).Sorted (· < ·) :=
    foldl_sortedInsert_sorted ys [] (by simp) (by simpa using hy)
  exact List.eq_of_perm_of_sorted ((p1.trans h).trans p2.symm)
    (s1.imp (fun hab => le_of_lt hab)) (s2.imp (fun hab => le_of_lt hab))

/-- Claim C2: for every pair of finite export and usage sets (modelled as
duplicate-free key lists in arbitrary iteration order), `UnusedExports`
holds exactly the exported names absent from the usage set, all three
report sequences are strictly sorted in ascending lexicographic order
(hence duplicate-free), and the report does not depend on the iteration
order of either set. -/
theorem c2_report_diff_sorted_dedup (globals refs : List String)
    (hg : globals.Nodup) (hr : refs.Nodup) :
    (∀ x, x ∈ (buildReport globals refs).UnusedExports ↔ (x ∈ globals ∧ x ∉ refs)) ∧
    (buildReport globals refs).Exported.Sorted (· < ·) ∧
    (buildReport globals refs).Imported.Sorted (· < ·) ∧
    (buildReport globals refs).UnusedExports.Sorted (· < ·) ∧
    (buildReport globals refs).Exported.Nodup ∧
    (buildReport globals refs).Imported.Nodup ∧
    (buildReport globals refs).UnusedExports.Nodup ∧
    (∀ globals2 refs2, globals2.Perm globals → refs2.Perm refs →
      buildReport globals2 refs2 = buildReport globals refs) := by
  have huf : ∀ (gs rs : List String),
      (buildReport gs rs).UnusedExports =
        (gs.filter (fun k => decide (k ∉ rs))).foldl sortedInsert [] :=
    fun gs rs => buildReport_unused gs rs
  have hmem : ∀ x, x ∈ (buildReport globals refs).UnusedExports ↔ (x ∈ globals ∧ x ∉ refs) := by
    intro x
    rw [huf globals refs]
    have hp : ((globals.filter (fun k => decide (k ∉ refs))).foldl sortedInsert []).Perm
        (globals.filter (fun k => decide (k ∉ refs))) := by
      simpa using foldl_sortedInsert_perm (globals.filter (fun k => decide (k ∉ refs))) []
    rw [hp.mem_iff, List.mem_filter]
    simp
  have hse : (buildReport globals refs).Exported.Sorted (· < ·) := by
    rw [buildReport_exported]
    exact foldl_sortedInsert_sorted globals [] (by simp) (by simpa using hg)
  have hsi : (buildReport globals refs).Imported.Sorted (· < ·) := by
    rw [buildReport_imported]
    exact foldl_sortedInsert_sorted refs [] (by simp) (by simpa using hr)
  have hsu : (buildReport globals refs).UnusedExports.Sorted (· < ·) := by
    rw [huf globals refs]
    exact foldl_sortedInsert_sorted _ [] (by simp) (by simpa using hg.filter _)
  refine ⟨hmem, hse, hsi, hsu, hse.nodup, hsi.nodup, hsu.nodup, ?_⟩
  intro globals2 refs2 hg2 hr2
  have hg2n : globals2.Nodup := hg2.nodup_iff.mpr hg
  apply Report.ext
  · rw [buildReport_exported, buildReport_exported]
    exact foldl_sortedInsert_eq_of_perm globals2 globals hg2 hg2n
  · rw [buildReport_imported, buildReport_imported]
    exact foldl_sortedInsert_eq_of_perm refs2 refs hr2 (hr2.nodup_iff.mpr hr)
  · rw [huf globals2 refs2, huf globals refs]
    have hfc : globals2.filter (fun k => decide (k ∉ refs2)) =
        globals2.filter (fun k => decide (k ∉ refs)) := by
      apply List.filter_congr
      intro k _
      simp [hr2.mem_iff]
    rw [hfc]
    exact foldl_sortedInsert_eq_of_perm _ _ (hg2.filter _) (hg2n.filter _)

/-- Witness for C2 at a concrete pair of sets. -/
theorem c2_report_diff_sorted_dedup_witness :
    ("b" ∈ (buildReport ["b", "a"] ["a"]).UnusedExports ↔
      ("b" ∈ (["b", "a"] : List String) ∧ "b" ∉ (["a"] : List String))) ∧
    (buildReport ["b", "a"] ["a"]).Exported.Sorted (· < ·) ∧
    buildReport ["a", "b"] ["a"] = buildReport ["b", "a"] ["a"] := by
  have h := c2_report_diff_sorted_dedup ["b", "a"] ["a"] (by decide) (by decide)
  exact ⟨h.1 "b", h.2.1, h.2.2.2.2.2.2.2 ["a", "b"] ["a"] (by decide) (by decide)⟩

/- ===== A model of the go/ast node shapes the two visitors dispatch on =====

`ast.Walk` traverses every node of the parse tree and calls `Visit` on each;
both visitors always return a non-nil visitor, so the traversal descends
through every construct, including function bodies.  The model covers the
node shapes the visitors inspect (identifiers, selector expressions, call
expressions, function literals, assignment statements, declaration
statements, blocks, value/type specs and the three declaration forms),
which is the fragment the claims quantify over; remaining Go node kinds
are handled by the visitors' default cases and add nothing.

An identifier records its position and, when the parser resolved it, the
position of its declaring object: `objPos = some p` models
`ident.Obj != nil && ident.Obj.Pos() == p`. -/

structure Ident where
  name : String
  pos : Nat
  objPos : Option Nat
deriving DecidableEq, Repr

/-- The `token.Token` values a `GenDecl` can carry (VAR, TYPE, CONST, IMPORT). -/
inductive GTok where
  | varTok | typeTok | constTok | importTok
deriving DecidableEq, Repr

/-- The assignment tokens the export visitor distinguishes: `:=` (DEFINE)
versus plain `=` (ASSIGN). -/
inductive AssignTok where
  | define | assign
deriving DecidableEq, Repr

mutual
inductive Expr where
  | ident (i : Ident)
  | basicLit (value : String)
  | selector (x : Expr) (sel : Ident)
  | call (fn : Expr) (args : List Expr)
  | funcLit (body : List Stmt)

inductive Stmt where
  | exprStmt (e : Expr)
  | assignStmt (tok : AssignTok) (lhs : List Expr) (rhs : List Expr)
  | declStmt (tok : GTok) (specs : List Spec)
  | blockStmt (stmts : List Stmt)

inductive Spec where
  | valueSpec (names : List Ident) (ty : Option Expr) (values : List Expr)
  | typeSpec (name : Ident) (ty : Expr)
  | importSpec (name : Option Ident) (pathLit : String)
end

/-- A top-level declaration of a file: a function declaration (name,
signature type expressions, body) or a `GenDecl` group. -/
inductive Decl where
  | funcDecl (name : Ident) (sig : List Expr) (body : List Stmt)
  | genDecl (tok : GTok) (specs : List Spec)

/-- An `ast.File`: its list of top-level declarations. -/
structure GoFile where
  decls : List Decl

/- ===== The export visitor (main.go lines 251-312) ===== -/

/-- Model of `exportVisitor.add` (main.go lines 299-312): the argument is
recorded only when it is an identifier, is neither blank nor empty, is at
its own declaring position, and is exported by the capitalisation rule. -/
def exportAdd (pkg : String) (acc : Finset String) : Expr → Finset String
  | .ident i =>
    if i.name = "_" ∨ i.name = "" then acc
    else if i.objPos = some i.pos then
      (if isExportedName i.name then insert (pkg ++ "." ++ i.name) acc else acc)
    else acc
  | _ => acc

/-- The `GenDecl` arm of `exportVisitor.Visit` (main.go lines 278-293):
for a VAR group, `add` every name of every `ValueSpec`; for a TYPE group,
`add` every `TypeSpec` name; other tokens (CONST, IMPORT) add nothing. -/
def genDeclAdds (pkg : String) (tok : GTok) (specs : List Spec) (acc : Finset String) : Finset String :=
  if tok = GTok.varTok then
    specs.foldl (fun a s =>
      match s with
      | .valueSpec names _ _ => names.foldl (fun b n => exportAdd pkg b (.ident n)) a
      | _ => a) acc
  else if tok = GTok.typeTok then
    specs.foldl (fun a s =>
      match s with
      | .typeSpec name _ => exportAdd pkg a (.ident name)
      | _ => a) acc
  else acc

/- `ast.Walk` composed with `exportVisitor.Visit`: at each node the
visitor's action runs (an `AssignStmt` with token DEFINE `add`s its
left-hand sides; a `FuncDecl` `add`s its name; a `GenDecl` behaves as
`genDeclAdds`), and since `Visit` returns the visitor itself, the walk
then recurses into every child node. -/

mutual
def exportWalkExpr (pkg : String) (acc : Finset String) : Expr → Finset String
  | .ident _ => acc
  | .basicLit _ => acc
  | .selector x _ => exportWalkExpr pkg acc x
  | .call fn args => exportWalkExprList pkg (exportWalkExpr pkg acc fn) args
  | .funcLit body => exportWalkStmtList pkg acc body
termination_by structural e => e

def exportWalkExprList (pkg : String) (acc : Finset String) : List Expr → Finset String
  | [] => acc
  | e :: es => exportWalkExprList pkg (exportWalkExpr pkg acc e) es
termination_by structural es => es

def exportWalkStmt (pkg : String) (acc : Finset String) : Stmt → Finset String
  | .exprStmt e => exportWalkExpr pkg acc e
  | .assignStmt tok lhs rhs =>
    exportWalkExprList pkg
      (exportWalkExprList pkg
        (if tok = AssignTok.define then lhs.foldl (exportAdd pkg) acc else acc) lhs) rhs
  | .declStmt tok specs => exportWalkSpecList pkg (genDeclAdds pkg tok specs acc) specs
  | .blockStmt stmts => exportWalkStmtList pkg acc stmts
termination_by structural s => s

def exportWalkStmtList (pkg : String) (acc : Finset String) : List Stmt → Finset String
  | [] => acc
  | s :: ss => exportWalkStmtList pkg (exportWalkStmt pkg acc s) ss
termination_by structural ss => ss

def exportWalkSpec (pkg : String) (acc : Finset String) : Spec → Finset String
  | .valueSpec _ ty values =>
    exportWalkExprList pkg (match ty with | some t => exportWalkExpr pkg acc t | none => acc) values
  | .typeSpec _ ty => exportWalkExpr pkg acc ty
  | .importSpec _ _ => acc
termination_by structural s => s

def exportWalkSpecList (pkg : String) (acc : Finset String) : List Spec → Finset String
  | [] => acc
  | s :: ss => exportWalkSpecList pkg (exportWalkSpec pkg acc s) ss
termination_by structural ss => ss
end

/-- Walk of one top-level declaration: a `FuncDecl` first `add`s its name
(the `Visit` action) and then the walk descends into its signature and
body; a `GenDecl` runs `genDeclAdds` and then descends into its specs. -/
def exportWalkDecl (pkg : String) (acc : Finset String) : Decl → Finset String
  | .funcDecl name sig body =>
    exportWalkStmtList pkg (exportWalkExprList pkg (exportAdd pkg acc (.ident name)) sig) body
  | .genDecl tok specs => exportWalkSpecList pkg (genDeclAdds pkg tok specs acc) specs

/-- Model of `ast.Walk(newExportVisitor(f, globals, pkgPath), f)`: the walk
of the file visits each top-level declaration in order, accumulating into
the shared export set. -/
def exportWalkFile (f : GoFile) (pkg : String) (acc : Finset String) : Finset String :=
  f.decls.foldl (fun a d => exportWalkDecl pkg a d) acc

/- ===== The identifier occurrences the visitor passes to add ===== -/

/-- The expressions the `GenDecl` arm of `Visit` passes to `add`. -/
def genDeclCands (tok : GTok) (specs : List Spec) : List Expr :=
  if tok = GTok.varTok then
    specs.flatMap (fun s =>
      match s with
      | .valueSpec names _ _ => names.map Expr.ident
      | _ => [])
  else if tok = GTok.typeTok then
    specs.flatMap (fun s =>
      match s with
      | .typeSpec name _ => [Expr.ident name]
      | _ => [])
  else []

mutual
def candExpr : Expr → List Expr
  | .ident _ => []
  | .basicLit _ => []
  | .selector x _ => candExpr x
  | .call fn args => candExpr fn ++ candExprList args
  | .funcLit body => candStmtList body
termination_by structural e => e

def candExprList : List Expr → List Expr
  | [] => []
  | e :: es => candExpr e ++ candExprList es
termination_by structural es => es

def candStmt : Stmt → List Expr
  | .exprStmt e => candExpr e
  | .assignStmt tok lhs rhs =>
    (if tok = AssignTok.define then lhs else []) ++ (candExprList lhs ++ candExprList rhs)
  | .declStmt tok specs => genDeclCands tok specs ++ candSpecList specs
  | .blockStmt stmts => candStmtList stmts
termination_by structural s => s

def candStmtList : List Stmt → List Expr
  | [] => []
  | s :: ss => candStmt s ++ candStmtList ss
termination_by structural ss => ss

def candSpec : Spec → List Expr
  | .valueSpec _ ty values =>
    (match ty with | some t => candExpr t | none => []) ++ candExprList values
  | .typeSpec _ ty => candExpr ty
  | .importSpec _ _ => []
termination_by structural s => s

def candSpecList : List Spec → List Expr
  | [] => []
  | s :: ss => candSpec s ++ candSpecList ss
termination_by structural ss => ss
end

/-- The candidate expressions of one declaration, in walk order. -/
def candDecl : Decl → List Expr
  | .funcDecl name sig body => Expr.ident name :: (candExprList sig ++ candStmtList body)
  | .genDecl tok specs => genDeclCands tok specs ++ candSpecList specs

/-- All candidate expressions the export walk of a file passes to `add`,
at every nesting depth, in walk order. -/
def candFile (f : GoFile) : List Expr :=
  f.decls.flatMap candDecl

theorem genDeclAdds_eq (pkg : String) (tok : GTok) (specs : List Spec) (acc : Finset String) :
    genDeclAdds pkg tok specs acc = (genDeclCands tok specs).foldl (exportAdd pkg) acc := by
  by_cases hv : tok = GTok.varTok
  · subst hv
    simp only [genDeclAdds, genDeclCands, if_pos rfl, reduceIte]
    induction specs generalizing acc with
    | nil => rfl
    | cons s ss ih =>
      cases s with
      | valueSpec names ty values =>
        simp [List.flatMap_cons, List.foldl_append, List.foldl_map, ih]
      | typeSpec name ty => simp [List.flatMap_cons, ih]
      | importSpec name pathLit => simp [List.flatMap_cons, ih]
  · by_cases ht : tok = GTok.typeTok
    · subst ht
      simp only [genDeclAdds, genDeclCands, if_neg hv, reduceIte]
      induction specs generalizing acc with
      | nil => rfl
      | cons s ss ih =>
        cases s with
        | valueSpec names ty values => simp [List.flatMap_cons, ih]
        | typeSpec name ty => simp [List.flatMap_cons, ih]
        | importSpec name pathLit => simp [List.flatMap_cons, ih]
    · simp [genDeclAdds, genDeclCands, hv, ht]

mutual
theorem exportWalkExpr_eq (pkg : String) (acc : Finset String) (e : Expr) :
    exportWalkExpr pkg acc e = (candExpr e).foldl (exportAdd pkg) acc := by
  cases e with
  | ident i => simp [exportWalkExpr, candExpr]
  | basicLit v => simp [exportWalkExpr, candExpr]
  | selector x sel => simp [exportWalkExpr, candExpr, exportWalkExpr_eq pkg acc x]
  | call fn args =>
    simp only [exportWalkExpr, candExpr, List.foldl_append, exportWalkExpr_eq pkg acc fn]
    exact exportWalkExprList_eq pkg _ args
  | funcLit body => simp [exportWalkExpr, candExpr, exportWalkStmtList_eq pkg acc body]

theorem exportWalkExprList_eq (pkg : String) (acc : Finset String) (es : List Expr) :
    exportWalkExprList pkg acc es = (candExprList es).foldl (exportAdd pkg) acc := by
  cases es with
  | nil => simp [exportWalkExprList, candExprList]
  | cons e es =>
    simp only [exportWalkExprList, candExprList, List.foldl_append, exportWalkExpr_eq pkg acc e]
    exact exportWalkExprList_eq pkg _ es

theorem exportWalkStmt_eq (pkg : String) (acc : Finset String) (s : Stmt) :
    exportWalkStmt pkg acc s = (candStmt s).foldl (exportAdd pkg) acc := by
  cases s with
  | exprStmt e => simp [exportWalkStmt, candStmt, exportWalkExpr_eq pkg acc e]
  | assignStmt tok lhs rhs =>
    by_cases h : tok = AssignTok.define
    · simp only [exportWalkStmt, candStmt, h, if_pos rfl, reduceIte, List.foldl_append,
        exportWalkExprList_eq pkg (lhs.foldl (exportAdd pkg) acc) lhs]
      exact exportWalkExprList_eq pkg _ rhs
    · simp only [exportWalkStmt, candStmt, if_neg h, List.nil_append, List.foldl_append,
        exportWalkExprList_eq pkg acc lhs]
      exact exportWalkExprList_eq pkg _ rhs
  | declStmt tok specs =>
    simp only [exportWalkStmt, candStmt, List.foldl_append, genDeclAdds_eq]
    exact exportWalkSpecList_eq pkg _ specs
  | blockStmt stmts => simp [exportWalkStmt, candStmt, exportWalkStmtList_eq pkg acc stmts]

theorem exportWalkStmtList_eq (pkg : String) (acc : Finset String) (ss : List Stmt) :
    exportWalkStmtList pkg acc ss = (candStmtList ss).foldl (exportAdd pkg) acc := by
  cases ss with
  | nil => simp [exportWalkStmtList, candStmtList]
  | cons s ss =>
    simp only [exportWalkStmtList, candStmtList, List.foldl_append, exportWalkStmt_eq pkg acc s]
    exact exportWalkStmtList_eq pkg _ ss

theorem exportWalkSpec_eq (pkg : String) (acc : Finset String) (s : Spec) :
    exportWalkSpec pkg acc s = (candSpec s).foldl (exportAdd pkg) acc := by
  cases s with
  | valueSpec names ty values =>
    cases ty with
    | none =>
      simp only [exportWalkSpec, candSpec, List.nil_append]
      exact exportWalkExprList_eq pkg acc values
    | some t =>
      simp only [exportWalkSpec, candSpec, List.foldl_append, exportWalkExpr_eq pkg acc t]
      exact exportWalkExprList_eq pkg _ values
  | typeSpec name ty => simp [exportWalkSpec, candSpec, exportWalkExpr_eq pkg acc ty]
  | importSpec name pathLit => simp [exportWalkSpec, candSpec]

theorem exportWalkSpecList_eq (pkg : String) (acc : Finset String) (ss : List Spec) :
    exportWalkSpecList pkg acc ss = (candSpecList ss).foldl (exportAdd pkg) acc := by
  cases ss with
  | nil => simp [exportWalkSpecList, candSpecList]
  | cons s ss =>
    simp only [exportWalkSpecList, candSpecList, List.foldl_append, exportWalkSpec_eq pkg acc s]
    exact exportWalkSpecList_eq pkg _ ss
end

theorem exportWalkDecl_eq (pkg : String) (acc : Finset String) (d : Decl) :
    exportWalkDecl pkg acc d = (candDecl d).foldl (exportAdd pkg) acc := by
  cases d with
  | funcDecl name sig body =>
    simp only [exportWalkDecl, candDecl, List.foldl_cons, List.foldl_append,
      exportWalkExprList_eq pkg (exportAdd pkg acc (.ident name)) sig]
    exact exportWalkStmtList_eq pkg _ body
  | genDecl tok specs =>
    simp only [exportWalkDecl, candDecl, List.foldl_append, genDeclAdds_eq]
    exact exportWalkSpecList_eq pkg _ specs

theorem exportWalkFile_eq (f : GoFile) (pkg : String) (acc : Finset String) :
    exportWalkFile f pkg acc = (candFile f).foldl (exportAdd pkg) acc := by
  unfold exportWalkFile candFile
  induction f.decls generalizing acc with
  | nil => rfl
  | cons d ds ih =>
    rw [List.foldl_cons, List.flatMap_cons, List.foldl_append, exportWalkDecl_eq]
    exact ih _

/-- Membership characterisation of a single `add` call. -/
theorem exportAdd_mem (pkg : String) (acc : Finset String) (e : Expr) (x : String) :
    x ∈ exportAdd pkg acc e ↔
      x ∈ acc ∨ ∃ i : Ident, e = Expr.ident i ∧ i.name ≠ "_" ∧ i.name ≠ "" ∧
        i.objPos = some i.pos ∧ isExportedName i.name = true ∧
        x = pkg ++ "." ++ i.name := by
  cases e with
  | ident i =>
    simp only [exportAdd]
    by_cases hb : i.name = "_" ∨ i.name = ""
    · rw [if_pos hb]
      constructor
      · exact fun h => Or.inl h
      · rintro (h | ⟨j, hj, hne1, hne2, _⟩)
        · exact h
        · cases hj
          rcases hb with hb | hb
          · exact absurd hb hne1
          · exact absurd hb hne2
    · have hb1 : i.name ≠ "_" := fun h => hb (Or.inl h)
      have hb2 : i.name ≠ "" := fun h => hb (Or.inr h)
      rw [if_neg hb]
      by_cases ho : i.objPos = some i.pos
      · rw [if_pos ho]
        by_cases he : isExportedName i.name = true
        · rw [if_pos he]
          rw [Finset.mem_insert]
          constructor
          · rintro (h | h)
            · exact Or.inr ⟨i, rfl, hb1, hb2, ho, he, h⟩
            · exact Or.inl h
          · rintro (h | ⟨j, hj, _, _, _, _, hx⟩)
            · exact Or.inr h
            · cases hj
              exact Or.inl hx
        · rw [if_neg he]
          constructor
          · exact fun h => Or.inl h
          · rintro (h | ⟨j, hj, _, _, _, he2, _⟩)
            · exact h
            · cases hj
              exact absurd he2 he
      · rw [if_neg ho]
        constructor
        · exact fun h => Or.inl h
        · rintro (h | ⟨j, hj, _, _, ho2, _, _⟩)
          · exact h
          · cases hj
            exact absurd ho2 ho
  | basicLit v => simp [exportAdd]
  | selector a b => simp [exportAdd]
  | call fn args => simp [exportAdd]
  | funcLit body => simp [exportAdd]

/-- Membership characterisation of folding `add` over a candidate list. -/
theorem foldl_exportAdd_mem (pkg : String) (l : List Expr) (acc : Finset String) (x : String) :
    x ∈ l.foldl (exportAdd pkg) acc ↔
      x ∈ acc ∨ ∃ i : Ident, Expr.ident i ∈ l ∧ i.name ≠ "_" ∧ i.name ≠ "" ∧
        i.objPos = some i.pos ∧ isExportedName i.name = true ∧
        x = pkg ++ "." ++ i.name := by
  induction l generalizing acc with
  | nil => simp
  | cons e es ih =>
    rw [List.foldl_cons, ih, exportAdd_mem]
    constructor
    · rintro ((h | ⟨i, hi, hrest⟩) | ⟨i, hi, hrest⟩)
      · exact Or.inl h
      · exact Or.inr ⟨i, by simp [hi.symm], hrest⟩
      · exact Or.inr ⟨i, List.mem_cons_of_mem e hi, hrest⟩
    · rintro (h | ⟨i, hi, hrest⟩)
      · exact Or.inl (Or.inl h)
      · rcases List.mem_cons.mp hi with hi | hi
        · exact Or.inl (Or.inr ⟨i, hi.symm, hrest⟩)
        · exact Or.inr ⟨i, hi, hrest⟩

/-- Membership characterisation of the whole export walk of a file. -/
theorem exportWalkFile_mem (f : GoFile) (pkg : String) (acc : Finset String) (x : String) :
    x ∈ exportWalkFile f pkg acc ↔
      x ∈ acc ∨ ∃ i : Ident, Expr.ident i ∈ candFile f ∧ i.name ≠ "_" ∧ i.name ≠ "" ∧
        i.objPos = some i.pos ∧ isExportedName i.name = true ∧
        x = pkg ++ "." ++ i.name := by
  rw [exportWalkFile_eq]
  exact foldl_exportAdd_mem pkg (candFile f) acc x

/- ===== Claims C1 and C4: the export extractor ===== -/

/-- Follows the claim's words (spec section 3, invariant): the identifiers
declared by the top-level declarations of a file — function names,
variable/constant group names and type names.  Go has no file-scope
short-form declarations (a `:=` statement can occur only inside a function
body), so that clause of the claim contributes nothing at file scope. -/
def topLevelDeclNames (f : GoFile) : List String :=
  f.decls.flatMap (fun d =>
    match d with
    | .funcDecl name _ _ => [name.name]
    | .genDecl _ specs => specs.flatMap (fun s =>
        match s with
        | .valueSpec names _ _ => names.map Ident.name
        | .typeSpec name _ => [name.name]
        | .importSpec _ _ => []))

/-- A file `package M` containing only `func f() { Foo := 1 }`: the
capitalised short-form declaration of `Foo` is nested inside the function
body, and the parser resolves `Foo` to an object declared at the
identifier's own position. -/
def fileC1 : GoFile :=
  ⟨[Decl.funcDecl ⟨"f", 1, some 1⟩ []
      [Stmt.assignStmt AssignTok.define [Expr.ident ⟨"Foo", 5, some 5⟩] [Expr.basicLit "1"]]]⟩

/-- Claim C1 is false as stated: `exportVisitor.Visit` returns the visitor
itself for every node, so `ast.Walk` descends into function bodies, and a
capitalised short variable declaration nested inside a body enters the
export set.  In `fileC1` the only top-level declaration is the function
`f`, yet the nested `Foo := 1` contributes `M.Foo`. -/
theorem c1_counterexample :
    "M.Foo" ∈ exportWalkFile fileC1 "M" ∅ ∧ topLevelDeclNames fileC1 = ["f"] := by
  constructor
  · decide
  · rfl

/-- Claim C1 (amended): a qualified name is inserted into the export set
only if it is `pkg.name` for an identifier occurrence that the visitor
dispatches on (a function declaration name, a var/type declaration group
name, or a left-hand side of a `:=` assignment) at any nesting depth —
including inside function bodies — and that occurrence is the declaring
occurrence of a non-blank, non-empty, capitalised identifier.  The
top-level restriction of the original claim does not hold. -/
theorem c1_amended_export_only_if (f : GoFile) (pkg : String) (x : String)
    (hx : x ∈ exportWalkFile f pkg ∅) :
    ∃ i : Ident, Expr.ident i ∈ candFile f ∧ i.name ≠ "_" ∧ i.name ≠ "" ∧
      i.objPos = some i.pos ∧ isExportedName i.name = true ∧
      x = pkg ++ "." ++ i.name := by
  rcases (exportWalkFile_mem f pkg ∅ x).mp hx with h | h
  · exact absurd h (Finset.not_mem_empty x)
  · exact h

/-- Witness for the amended C1 at the concrete file `fileC1`. -/
theorem c1_amended_export_only_if_witness :
    ∃ i : Ident, Expr.ident i ∈ candFile fileC1 ∧ i.name ≠ "_" ∧ i.name ≠ "" ∧
      i.objPos = some i.pos ∧ isExportedName i.name = true ∧
      "M.Foo" = "M" ++ "." ++ i.name :=
  c1_amended_export_only_if fileC1 "M" "M.Foo" (by decide)

/-- A file `package M` with `var X = 1` at top level and a plain
reassignment `X = 2` inside a function body; the reassigned occurrence of
`X` resolves to the object declared at position 3 (the top-level `var`),
not at its own position 20. -/
def fileC4 : GoFile :=
  ⟨[Decl.genDecl GTok.varTok [Spec.valueSpec [⟨"X", 3, some 3⟩] none [Expr.basicLit "1"]],
    Decl.funcDecl ⟨"f", 10, some 10⟩ []
      [Stmt.assignStmt AssignTok.assign [Expr.ident ⟨"X", 20, some 3⟩] [Expr.basicLit "2"]]]⟩

/-- Claim C4: a candidate identifier is inserted (as `pkg.name`) if and
only if it is neither blank nor empty, its occurrence is the declaring
occurrence (`Obj != nil` and `Obj.Pos() == Pos()`), and it is public by
capitalisation; and concretely, a top-level `var X = 1` followed by a
plain reassignment `X = 2` records exactly `M.X` once, the reassignment
adding nothing. -/
theorem c4_add_conditions :
    (∀ (pkg : String) (acc : Finset String) (i : Ident) (x : String),
      x ∈ exportAdd pkg acc (Expr.ident i) ↔
        x ∈ acc ∨ (i.name ≠ "_" ∧ i.name ≠ "" ∧ i.objPos = some i.pos ∧
          isExportedName i.name = true ∧ x = pkg ++ "." ++ i.name)) ∧
    exportWalkFile fileC4 "M" ∅ = {"M.X"} := by
  constructor
  · intro pkg acc i x
    rw [exportAdd_mem]
    constructor
    · rintro (h | ⟨j, hj, hrest⟩)
      · exact Or.inl h
      · cases hj
        exact Or.inr hrest
    · rintro (h | hrest)
      · exact Or.inl h
      · exact Or.inr ⟨i, rfl, hrest⟩
  · decide

/- ===== The ref visitor (main.go lines 314-384) ===== -/

/-- Model of `strings.Split(s, "/")` on the character list: splits at
every separator occurrence; splitting the empty string yields one empty
segment, as in Go. -/
def splitOnChar (c : Char) : List Char → List (List Char)
  | [] => [[]]
  | x :: xs =>
    if x = c then [] :: splitOnChar c xs
    else
      match splitOnChar c xs with
      | [] => [[x]]
      | y :: ys => (x :: y) :: ys

def splitSlash (s : String) : List String :=
  (splitOnChar '/' s.data).map String.mk

/-- The alias of one `ImportSpec` (main.go lines 354-359): the last
slash-separated segment of the quoted module path, overridden by the
explicit rename when present. -/
def importAlias (name : Option Ident) (impName : String) : String :=
  match name with
  | some n => n.name
  | none => (splitSlash impName).getLastD ""

/-- A write `m[k] = v` to a Go map modelled as an association list with
unique keys: the new binding replaces any previous binding of `k`. -/
def mapInsert (m : List (String × String)) (k v : String) : List (String × String) :=
  (k, v) :: m.filter (fun p => p.1 ≠ k)

/-- The inner loop body of the import-table construction (main.go lines
351-362): an `ImportSpec` binds its alias to the quote-trimmed module
path; other spec shapes are skipped by the type assertion. -/
def importSpecStep (tbl2 : List (String × String)) : Spec → List (String × String)
  | .importSpec name pathLit =>
    mapInsert tbl2 (importAlias name (trimQuotes pathLit)) (trimQuotes pathLit)
  | _ => tbl2

/-- The outer loop body (main.go lines 345-364): only `GenDecl`s with the
IMPORT token contribute; their specs are scanned in order. -/
def importDeclStep (tbl : List (String × String)) : Decl → List (String × String)
  | .genDecl tok specs => if tok = GTok.importTok then specs.foldl importSpecStep tbl else tbl
  | _ => tbl

/-- Model of the import-table construction in `newRefVisitor` (main.go
lines 343-367): scan the file's declarations; for each IMPORT `GenDecl`,
for each `ImportSpec`, bind the alias to the quote-trimmed module path. -/
def buildImportTable (f : GoFile) : List (String × String) :=
  f.decls.foldl importDeclStep []

/-- Model of `refVisitor.Visit` (main.go lines 369-384) at a single node:
only a `SelectorExpr` whose base operand is a plain identifier that is a
key of the import table records `table[base] + "." + selName`. -/
def refStep (tbl : List (String × String)) (acc : Finset String) : Expr → Finset String
  | .selector x sel =>
    (match x with
     | .ident i =>
       match List.lookup i.name tbl with
       | some imp => insert (imp ++ "." ++ sel.name) acc
       | none => acc
     | _ => acc)
  | _ => acc

/- `ast.Walk` composed with `refVisitor.Visit`: the visitor action fires at
every node (a no-op except on selector expressions) and the walk recurses
into every child. -/

mutual
def refWalkExpr (tbl : List (String × String)) (acc : Finset String) : Expr → Finset String
  | .ident _ => acc
  | .basicLit _ => acc
  | .selector x sel => refWalkExpr tbl (refStep tbl acc (.selector x sel)) x
  | .call fn args => refWalkExprList tbl (refWalkExpr tbl acc fn) args
  | .funcLit body => refWalkStmtList tbl acc body
termination_by structural e => e

def refWalkExprList (tbl : List (String × String)) (acc : Finset String) : List Expr → Finset String
  | [] => acc
  | e :: es => refWalkExprList tbl (refWalkExpr tbl acc e) es
termination_by structural es => es

def refWalkStmt (tbl : List (String × String)) (acc : Finset String) : Stmt → Finset String
  | .exprStmt e => refWalkExpr tbl acc e
  | .assignStmt _ lhs rhs => refWalkExprList tbl (refWalkExprList tbl acc lhs) rhs
  | .declStmt _ specs => refWalkSpecList tbl acc specs
  | .blockStmt stmts => refWalkStmtList tbl acc stmts
termination_by structural s => s

def refWalkStmtList (tbl : List (String × String)) (acc : Finset String) : List Stmt → Finset String
  | [] => acc
  | s :: ss => refWalkStmtList tbl (refWalkStmt tbl acc s) ss
termination_by structural ss => ss

def refWalkSpec (tbl : List (String × String)) (acc : Finset String) : Spec → Finset String
  | .valueSpec _ ty values =>
    refWalkExprList tbl (match ty with | some t => refWalkExpr tbl acc t | none => acc) values
  | .typeSpec _ ty => refWalkExpr tbl acc ty
  | .importSpec _ _ => acc
termination_by structural s => s

def refWalkSpecList (tbl : List (String × String)) (acc : Finset String) : List Spec → Finset String
  | [] => acc
  | s :: ss => refWalkSpecList tbl (refWalkSpec tbl acc s) ss
termination_by structural ss => ss
end

def refWalkDecl (tbl : List (String × String)) (acc : Finset String) : Decl → Finset String
  | .funcDecl _ sig body => refWalkStmtList tbl (refWalkExprList tbl acc sig) body
  | .genDecl _ specs => refWalkSpecList tbl acc specs

/-- Model of `ast.Walk(newRefVisitor(f, refs), f)`: build the per-file
alias table, then walk every declaration accumulating into the shared
usage set. -/
def refWalkFile (f : GoFile) (refs : Finset String) : Finset String :=
  f.decls.foldl (fun a d => refWalkDecl (buildImportTable f) a d) refs

/- ===== Spec-side description of the usage extractor (for claim C3) =====

The following definitions follow the words of the specification (section
4.4), not the source: the import specs of a file, and the qualified
selector occurrences `base.name` with a plain identifier base. -/

def specPick : Spec → Option (Option Ident × String)
  | .importSpec name pathLit => some (name, pathLit)
  | _ => none

def importSpecsOfDecl : Decl → List (Option Ident × String)
  | .genDecl tok specs => if tok = GTok.importTok then specs.filterMap specPick else []
  | _ => []

def importSpecsOf (f : GoFile) : List (Option Ident × String) :=
  f.decls.flatMap importSpecsOfDecl

mutual
def selOccsExpr : Expr → List (String × String)
  | .ident _ => []
  | .basicLit _ => []
  | .selector x sel =>
    (match x with | .ident i => [(i.name, sel.name)] | _ => []) ++ selOccsExpr x
  | .call fn args => selOccsExpr fn ++ selOccsExprList args
  | .funcLit body => selOccsStmtList body
termination_by structural e => e

def selOccsExprList : List Expr → List (String × String)
  | [] => []
  | e :: es => selOccsExpr e ++ selOccsExprList es
termination_by structural es => es

def selOccsStmt : Stmt → List (String × String)
  | .exprStmt e => selOccsExpr e
  | .assignStmt _ lhs rhs => selOccsExprList lhs ++ selOccsExprList rhs
  | .declStmt _ specs => selOccsSpecList specs
  | .blockStmt stmts => selOccsStmtList stmts
termination_by structural s => s

def selOccsStmtList : List Stmt → List (String × String)
  | [] => []
  | s :: ss => selOccsStmt s ++ selOccsStmtList ss
termination_by structural ss => ss

def selOccsSpec : Spec → List (String × String)
  | .valueSpec _ ty values =>
    (match ty with | some t => selOccsExpr t | none => []) ++ selOccsExprList values
  | .typeSpec _ ty => selOccsExpr ty
  | .importSpec _ _ => []
termination_by structural s => s

def selOccsSpecList : List Spec → List (String × String)
  | [] => []
  | s :: ss => selOccsSpec s ++ selOccsSpecList ss
termination_by structural ss => ss
end

def selOccsDecl : Decl → List (String × String)
  | .funcDecl _ sig body => selOccsExprList sig ++ selOccsStmtList body
  | .genDecl _ specs => selOccsSpecList specs

def selOccsFile (f : GoFile) : List (String × String) :=
  f.decls.flatMap selOccsDecl

/-- The usage strings the spec prescribes for a list of selector
occurrences: `table[base] + "." + name` for each occurrence whose base
is a key of the table. -/
def refsOfOccs (tbl : List (String × String)) (occs : List (String × String)) : List String :=
  occs.filterMap (fun p => (List.lookup p.1 tbl).map (fun imp => imp ++ "." ++ p.2))

theorem refsOfOccs_append (tbl : List (String × String)) (a b : List (String × String)) :
    refsOfOccs tbl (a ++ b) = refsOfOccs tbl a ++ refsOfOccs tbl b := by
  simp [refsOfOccs]

theorem refStep_selector (tbl : List (String × String)) (acc : Finset String)
    (x : Expr) (sel : Ident) :
    refStep tbl acc (.selector x sel) =
      (refsOfOccs tbl (match x with | .ident i => [(i.name, sel.name)] | _ => [])).foldl
        (fun a r => insert r a) acc := by
  cases x with
  | ident i => cases hl : List.lookup i.name tbl <;> simp [refStep, refsOfOccs, hl]
  | basicLit v => simp [refStep, refsOfOccs]
  | selector a b => simp [refStep, refsOfOccs]
  | call fn args => simp [refStep, refsOfOccs]
  | funcLit body => simp [refStep, refsOfOccs]

theorem selOccsExpr_selector (x : Expr) (sel : Ident) :
    selOccsExpr (.selector x sel) =
      (match x with | .ident i => [(i.name, sel.name)] | _ => []) ++ selOccsExpr x := by
  cases x <;> simp [selOccsExpr]

mutual
theorem refWalkExpr_eq (tbl : List (String × String)) (acc : Finset String) (e : Expr) :
    refWalkExpr tbl acc e =
      (refsOfOccs tbl (selOccsExpr e)).foldl (fun a r => insert r a) acc := by
  cases e with
  | ident i => simp [refWalkExpr, selOccsExpr, refsOfOccs]
  | basicLit v => simp [refWalkExpr, selOccsExpr, refsOfOccs]
  | selector x sel =>
    rw [refWalkExpr, selOccsExpr_selector, refsOfOccs_append, List.foldl_append,
      ← refStep_selector]
    exact refWalkExpr_eq tbl _ x
  | call fn args =>
    rw [refWalkExpr, selOccsExpr, refsOfOccs_append, List.foldl_append,
      ← refWalkExpr_eq tbl acc fn]
    exact refWalkExprList_eq tbl _ args
  | funcLit body =>
    rw [refWalkExpr, selOccsExpr]
    exact refWalkStmtList_eq tbl acc body

theorem refWalkExprList_eq (tbl : List (String × String)) (acc : Finset String) (es : List Expr) :
    refWalkExprList tbl acc es =
      (refsOfOccs tbl (selOccsExprList es)).foldl (fun a r => insert r a) acc := by
  cases es with
  | nil => simp [refWalkExprList, selOccsExprList, refsOfOccs]
  | cons e es =>
    rw [refWalkExprList, selOccsExprList, refsOfOccs_append, List.foldl_append,
      ← refWalkExpr_eq tbl acc e]
    exact refWalkExprList_eq tbl _ es

theorem refWalkStmt_eq (tbl : List (String × String)) (acc : Finset String) (s : Stmt) :
    refWalkStmt tbl acc s =
      (refsOfOccs tbl (selOccsStmt s)).foldl (fun a r => insert r a) acc := by
  cases s with
  | exprStmt e =>
    rw [refWalkStmt, selOccsStmt]
    exact refWalkExpr_eq tbl acc e
  | assignStmt tok lhs rhs =>
    rw [refWalkStmt, selOccsStmt, refsOfOccs_append, List.foldl_append,
      ← refWalkExprList_eq tbl acc lhs]
    exact refWalkExprList_eq tbl _ rhs
  | declStmt tok specs =>
    rw [refWalkStmt, selOccsStmt]
    exact refWalkSpecList_eq tbl acc specs
  | blockStmt stmts =>
    rw [refWalkStmt, selOccsStmt]
    exact refWalkStmtList_eq tbl acc stmts

theorem refWalkStmtList_eq (tbl : List (String × String)) (acc : Finset String) (ss : List Stmt) :
    refWalkStmtList tbl acc ss =
      (refsOfOccs tbl (selOccsStmtList ss)).foldl (fun a r => insert r a) acc := by
  cases ss with
  | nil => simp [refWalkStmtList, selOccsStmtList, refsOfOccs]
  | cons s ss =>
    rw [refWalkStmtList, selOccsStmtList, refsOfOccs_append, List.foldl_append,
      ← refWalkStmt_eq tbl acc s]
    exact refWalkStmtList_eq tbl _ ss

theorem refWalkSpec_eq (tbl : List (String × String)) (acc : Finset String) (s : Spec) :
    refWalkSpec tbl acc s =
      (refsOfOccs tbl (selOccsSpec s)).foldl (fun a r => insert r a) acc := by
  cases s with
  | valueSpec names ty values =>
    cases ty with
    | none =>
      rw [refWalkSpec, selOccsSpec]
      simp only [List.nil_append]
      exact refWalkExprList_eq tbl acc values
    | some t =>
      rw [refWalkSpec, selOccsSpec, refsOfOccs_append, List.foldl_append,
        ← refWalkExpr_eq tbl acc t]
      exact refWalkExprList_eq tbl _ values
  | typeSpec name ty =>
    rw [refWalkSpec, selOccsSpec]
    exact refWalkExpr_eq tbl acc ty
  | importSpec name pathLit => simp [refWalkSpec, selOccsSpec, refsOfOccs]

theorem refWalkSpecList_eq (tbl : List (String × String)) (acc : Finset String) (ss : List Spec) :
    refWalkSpecList tbl acc ss =
      (refsOfOccs tbl (selOccsSpecList ss)).foldl (fun a r => insert r a) acc := by
  cases ss with
  | nil => simp [refWalkSpecList, selOccsSpecList, refsOfOccs]
  | cons s ss =>
    rw [refWalkSpecList, selOccsSpecList, refsOfOccs_append, List.foldl_append,
      ← refWalkSpec_eq tbl acc s]
    exact refWalkSpecList_eq tbl _ ss
end

theorem refWalkDecl_eq (tbl : List (String × String)) (acc : Finset String) (d : Decl) :
    refWalkDecl tbl acc d =
      (refsOfOccs tbl (selOccsDecl d)).foldl (fun a r => insert r a) acc := by
  cases d with
  | funcDecl name sig body =>
    rw [refWalkDecl, selOccsDecl, refsOfOccs_append, List.foldl_append,
      ← refWalkExprList_eq tbl acc sig]
    exact refWalkStmtList_eq tbl _ body
  | genDecl tok specs =>
    rw [refWalkDecl, selOccsDecl]
    exact refWalkSpecList_eq tbl acc specs

theorem refWalkFile_eq (f : GoFile) (refs : Finset String) :
    refWalkFile f refs =
      (refsOfOccs (buildImportTable f) (selOccsFile f)).foldl (fun a r => insert r a) refs := by
  unfold refWalkFile selOccsFile
  induction f.decls generalizing refs with
  | nil => simp [refsOfOccs]
  | cons d ds ih =>
    rw [List.foldl_cons, List.flatMap_cons, refsOfOccs_append, List.foldl_append,
      ← refWalkDecl_eq]
    exact ih _

theorem mem_foldl_insert (l : List String) (acc : Finset String) (x : String) :
    x ∈ l.foldl (fun a r => insert r a) acc ↔ x ∈ acc ∨ x ∈ l := by
  induction l generalizing acc with
  | nil => simp
  | cons r rs ih =>
    rw [List.foldl_cons, ih]
    simp only [Finset.mem_insert, List.mem_cons]
    tauto

/-- Membership characterisation of the whole usage walk of a file. -/
theorem refWalkFile_mem (f : GoFile) (refs : Finset String) (x : String) :
    x ∈ refWalkFile f refs ↔
      x ∈ refs ∨ ∃ b n imp, (b, n) ∈ selOccsFile f ∧
        List.lookup b (buildImportTable f) = some imp ∧ x = imp ++ "." ++ n := by
  rw [refWalkFile_eq, mem_foldl_insert]
  constructor
  · rintro (h | h)
    · exact Or.inl h
    · rcases List.mem_filterMap.mp h with ⟨⟨b, n⟩, hmem, hmap⟩
      rcases Option.map_eq_some'.mp hmap with ⟨imp, hl, hx⟩
      exact Or.inr ⟨b, n, imp, hmem, hl, hx.symm⟩
  · rintro (h | ⟨b, n, imp, hmem, hl, hx⟩)
    · exact Or.inl h
    · refine Or.inr (List.mem_filterMap.mpr ⟨(b, n), hmem, ?_⟩)
      rw [hl]
      simp [hx]

/-- One spec-side table-building step, for comparison with the source's
fold. -/
def tblStep (tbl : List (String × String)) (p : Option Ident × String) : List (String × String) :=
  mapInsert tbl (importAlias p.1 (trimQuotes p.2)) (trimQuotes p.2)

theorem specsFold_eq (specs : List Spec) (tbl : List (String × String)) :
    specs.foldl importSpecStep tbl = (specs.filterMap specPick).foldl tblStep tbl := by
  induction specs generalizing tbl with
  | nil => rfl
  | cons s ss ih =>
    cases s <;> simp [importSpecStep, specPick, List.filterMap_cons, ih, tblStep]

theorem declsFold_eq (ds : List Decl) (tbl : List (String × String)) :
    ds.foldl importDeclStep tbl = (ds.flatMap importSpecsOfDecl).foldl tblStep tbl := by
  induction ds generalizing tbl with
  | nil => rfl
  | cons d ds ih =>
    cases d with
    | funcDecl name sig body => simp [importDeclStep, importSpecsOfDecl, ih]
    | genDecl tok specs =>
      by_cases h : tok = GTok.importTok
      · simp [importDeclStep, importSpecsOfDecl, h, List.foldl_append, specsFold_eq, ih]
      · simp [importDeclStep, importSpecsOfDecl, h, ih]

theorem buildImportTable_eq (f : GoFile) :
    buildImportTable f = (importSpecsOf f).foldl tblStep [] :=
  declsFold_eq f.decls []

theorem lookup_filter_ne (m : List (String × String)) (k k2 : String) (h : k2 ≠ k) :
    List.lookup k2 (m.filter (fun p => !decide (p.1 = k))) = List.lookup k2 m := by
  induction m with
  | nil => rfl
  | cons p m ih =>
    obtain ⟨a, b⟩ := p
    by_cases hp : a = k
    · subst hp
      have hb : (k2 == a) = false := by simp [h]
      simp [List.filter_cons, List.lookup, hb, ih]
    · by_cases hk : k2 = a
      · subst hk
        simp [List.filter_cons, hp, List.lookup]
      · have hb : (k2 == a) = false := by simp [hk]
        simp [List.filter_cons, hp, List.lookup, hb, ih]

theorem lookup_mapInsert_self (m : List (String × String)) (k v : String) :
    List.lookup k (mapInsert m k v) = some v := by
  simp [mapInsert, List.lookup]

theorem lookup_mapInsert_ne (m : List (String × String)) (k v k2 : String) (h : k2 ≠ k) :
    List.lookup k2 (mapInsert m k v) = List.lookup k2 m := by
  have hb : (k2 == k) = false := by simp [h]
  simp [mapInsert, List.lookup, hb, lookup_filter_ne m k k2 h]

theorem lookup_foldl_tblStep_of_not_mem (l : List (Option Ident × String))
    (tbl : List (String × String)) (k : String) :
    (∀ p ∈ l, importAlias p.1 (trimQuotes p.2) ≠ k) →
    List.lookup k (l.foldl tblStep tbl) = List.lookup k tbl := by
  induction l generalizing tbl with
  | nil => intro h; rfl
  | cons q rest ih =>
    intro h
    rw [List.foldl_cons, ih (tblStep tbl q) (fun p hp => h p (List.mem_cons_of_mem q hp))]
    simp only [tblStep]
    exact lookup_mapInsert_ne tbl (importAlias q.1 (trimQuotes q.2)) (trimQuotes q.2) k
      (Ne.symm (h q (List.mem_cons_self q rest)))

theorem lookup_foldl_tblStep_mem (l : List (Option Ident × String))
    (tbl : List (String × String))
    (hnd : (l.map (fun p => importAlias p.1 (trimQuotes p.2))).Nodup) :
    ∀ p ∈ l, List.lookup (importAlias p.1 (trimQuotes p.2)) (l.foldl tblStep tbl) =
      some (trimQuotes p.2) := by
  induction l generalizing tbl with
  | nil =>
    intro p hp
    exact absurd hp (List.not_mem_nil p)
  | cons q rest ih =>
    rw [List.map_cons, List.nodup_cons] at hnd
    intro p hp
    rw [List.foldl_cons]
    rcases List.mem_cons.mp hp with hp | hp
    · subst hp
      have hq : ∀ r ∈ rest, importAlias r.1 (trimQuotes r.2) ≠ importAlias p.1 (trimQuotes p.2) :=
        fun r hr heq => hnd.1 (heq ▸ List.mem_map_of_mem _ hr)
      rw [lookup_foldl_tblStep_of_not_mem rest (tblStep tbl p) _ hq]
      simp only [tblStep]
      exact lookup_mapInsert_self tbl _ _
    · exact ih (tblStep tbl q) hnd.2 p hp

/-- Claim C3: the usage extractor builds the per-file alias table mapping
each import's alias (explicit rename, else last slash-separated segment of
the quote-trimmed module path) to that module path, and a selector
expression `base.name` contributes `table[base] + "." + name` to the usage
set exactly when `base` is a plain identifier bound in that file's own
table; all other selector expressions contribute nothing.  The alias map
is stated under pairwise-distinct aliases (with duplicate aliases a Go map
keeps only the last binding). -/
theorem c3_usage_extractor (f : GoFile) (acc : Finset String)
    (hnd : ((importSpecsOf f).map (fun p => importAlias p.1 (trimQuotes p.2))).Nodup) :
    (∀ p ∈ importSpecsOf f,
      List.lookup (importAlias p.1 (trimQuotes p.2)) (buildImportTable f) =
        some (trimQuotes p.2)) ∧
    (∀ x, x ∈ refWalkFile f acc ↔
      x ∈ acc ∨ ∃ b n imp, (b, n) ∈ selOccsFile f ∧
        List.lookup b (buildImportTable f) = some imp ∧ x = imp ++ "." ++ n) := by
  constructor
  · intro p hp
    rw [buildImportTable_eq]
    exact lookup_foldl_tblStep_mem (importSpecsOf f) [] hnd p hp
  · intro x
    exact refWalkFile_mem f acc x

/-- A file importing `fmt` (implicit alias) and `github.com/acme/lib`
under the rename `l`, whose body contains `fmt.Print(...)`, `l.Foo(...)`
and `localVar.Bar(...)` where `localVar` is not an import alias. -/
def fileC3 : GoFile :=
  ⟨[Decl.genDecl GTok.importTok
      [Spec.importSpec none "\"fmt\"",
       Spec.importSpec (some ⟨"l", 2, some 2⟩) "\"github.com/acme/lib\""],
    Decl.funcDecl ⟨"main", 5, some 5⟩ []
      [Stmt.exprStmt (Expr.call (Expr.selector (Expr.ident ⟨"fmt", 7, none⟩) ⟨"Print", 8, none⟩) []),
       Stmt.exprStmt (Expr.call (Expr.selector (Expr.ident ⟨"l", 9, none⟩) ⟨"Foo", 10, none⟩) []),
       Stmt.exprStmt (Expr.call (Expr.selector (Expr.ident ⟨"localVar", 11, some 6⟩) ⟨"Bar", 12, none⟩) [])]]⟩

/-- Witness for C3 at the concrete file `fileC3`: both alias bindings are
present, the membership characterisation holds for `fmt.Print`, and the
whole usage walk evaluates to exactly the two resolvable references (the
`localVar.Bar` selector contributes nothing). -/
theorem c3_usage_extractor_witness :
    List.lookup (importAlias none (trimQuotes "\"fmt\"")) (buildImportTable fileC3) =
      some (trimQuotes "\"fmt\"") ∧
    List.lookup (importAlias (some ⟨"l", 2, some 2⟩) (trimQuotes "\"github.com/acme/lib\""))
      (buildImportTable fileC3) = some (trimQuotes "\"github.com/acme/lib\"") ∧
    ("fmt.Print" ∈ refWalkFile fileC3 ∅ ↔
      "fmt.Print" ∈ (∅ : Finset String) ∨ ∃ b n imp, (b, n) ∈ selOccsFile fileC3 ∧
        List.lookup b (buildImportTable fileC3) = some imp ∧ "fmt.Print" = imp ++ "." ++ n) ∧
    refWalkFile fileC3 ∅ = {"fmt.Print", "github.com/acme/lib.Foo"} := by
  have h := c3_usage_extractor fileC3 ∅ (by decide)
  exact ⟨h.1 (none, "\"fmt\"") (by decide),
    h.1 (some ⟨"l", 2, some 2⟩, "\"github.com/acme/lib\"") (by decide),
    h.2 "fmt.Print", by decide⟩

/- ===== The source-tree walker (main.go lines 143-210) =====

The filesystem is modelled as a tree of named nodes; `filepath.Walk` is
modelled by its documented semantics on such a tree: the walk function is
called on the root, then on each directory entry in order, recursing into
subdirectories; `SkipDir` returned for a directory prunes that subtree,
`SkipDir` returned for a non-directory file skips the remainder of the
containing directory; `filepath.Walk` itself converts a final `SkipDir`
into a nil error.  I/O errors and context cancellation are outside the
model (the walk callback in runOnFiles returns no other error itself).
The first component of each result is the list of file paths sent to the
consumer channel, in walk order. -/

inductive FSNode where
  | file (name : String)
  | dir (name : String) (children : List FSNode)

def FSNode.name : FSNode → String
  | .file n => n
  | .dir n _ => n

def FSNode.isDir : FSNode → Bool
  | .file _ => false
  | .dir _ _ => true

/-- The errors the modelled walk callback can signal. -/
inductive WErr where
  | skipDir
  | err (msg : String)
deriving DecidableEq, Repr

/-- The walk callback of `runOnFiles` (main.go lines 172-201): prune any
path containing the `/vendor/` segment; prune any path equal (after
stripping one trailing separator from each side) to an exclusion; pass
over directories and non-`.go` files; send any other file to the
consumer. -/
def walkFn (excluding : List String) (path : String) (isDir : Bool) :
    List String × Option WErr :=
  if containsStr path (fsep ++ "vendor" ++ fsep) then ([], some WErr.skipDir)
  else if excluding.any (fun ex => trimSep path = trimSep ex) then ([], some WErr.skipDir)
  else if isDir then ([], none)
  else if hasSuffixStr path ".go" then ([path], none)
  else ([], none)

mutual
/-- The recursive `walk` of `path/filepath`: call the walk function on the
visited path; for a directory whose callback returned nil, walk the
children in order. -/
def walkRec (ex : List String) (path : String) : FSNode → List String × Option WErr
  | .file _ => walkFn ex path false
  | .dir _ children =>
    match (walkFn ex path true).2 with
    | some e => ([], some e)
    | none => walkChildren ex path children
termination_by structural n => n

/-- The loop of `walk` over a directory's entries: a child error is fatal
unless it is `SkipDir` from a directory child; `SkipDir` from a file child
aborts the remaining entries of this directory and propagates. -/
def walkChildren (ex : List String) (path : String) : List FSNode → List String × Option WErr
  | [] => ([], none)
  | c :: rest =>
    match walkRec ex (path ++ fsep ++ c.name) c with
    | (fs, none) =>
      match walkChildren ex path rest with
      | (fs2, r) => (fs ++ fs2, r)
    | (fs, some WErr.skipDir) =>
      if c.isDir then
        match walkChildren ex path rest with
        | (fs2, r) => (fs ++ fs2, r)
      else (fs, some WErr.skipDir)
    | (fs, some (WErr.err m)) => (fs, some (WErr.err m))
termination_by structural cs => cs
end

/-- `filepath.Walk(root, walkFn)`: run the recursive walk on the root and
convert a final `SkipDir` into success. -/
def walkTop (ex : List String) (root : String) (n : FSNode) : List String × Option WErr :=
  match walkRec ex root n with
  | (fs, some WErr.skipDir) => (fs, none)
  | r => r

def werrMsg : WErr → String
  | .skipDir => "skip"
  | .err m => m

/-- The producer loop of `runOnFiles` (lines 170-205): walk each root in
order; a failed walk aborts with an error naming the root. -/
def walkRoots (ex : List String) : List (String × FSNode) → List String × Option String
  | [] => ([], none)
  | (root, n) :: rest =>
    match walkTop ex root n with
    | (fs, some e) => (fs, some ("could not walk " ++ root ++ ": " ++ werrMsg e))
    | (fs, none) =>
      match walkRoots ex rest with
      | (fs2, r) => (fs ++ fs2, r)

/-- The consumer of `runOnFiles` (lines 149-164), sequentialised: the
channel delivers file paths in walk order and the consumer invokes the
callback on each until the first failure, after which it stops accepting;
the errgroup then reports that first failure.  The result is the list of
paths actually passed to the callback and the callback's first error. -/
def deliver (fn : String → Option String) : List String → List String × Option String
  | [] => ([], none)
  | f :: rest =>
    match fn f with
    | some e => ([f], some e)
    | none =>
      match deliver fn rest with
      | (ds, r) => (f :: ds, r)

/- ===== Paths of the modelled filesystem ===== -/

mutual
def filePaths (path : String) : FSNode → List String
  | .file _ => [path]
  | .dir _ children => filePathsList path children
termination_by structural n => n

def filePathsList (path : String) : List FSNode → List String
  | [] => []
  | c :: rest => filePaths (path ++ fsep ++ c.name) c ++ filePathsList path rest
termination_by structural cs => cs
end

mutual
def dirPaths (path : String) : FSNode → List String
  | .file _ => []
  | .dir _ children => path :: dirPathsList path children
termination_by structural n => n

def dirPathsList (path : String) : List FSNode → List String
  | [] => []
  | c :: rest => dirPaths (path ++ fsep ++ c.name) c ++ dirPathsList path rest
termination_by structural cs => cs
end

theorem walkFn_skip (ex : List String) (path : String) (isDir : Bool)
    (h : containsStr path (fsep ++ "vendor" ++ fsep) = true ∨
      ex.any (fun e => trimSep path = trimSep e) = true) :
    walkFn ex path isDir = ([], some WErr.skipDir) := by
  rcases h with h | h
  · simp [walkFn, h]
  · by_cases hv : containsStr path (fsep ++ "vendor" ++ fsep) = true
    · simp [walkFn, hv]
    · simp [walkFn, hv, h]

theorem walkFn_emit (ex : List String) (path : String) (isDir : Bool) (p : String)
    (h : p ∈ (walkFn ex path isDir).1) :
    p = path ∧ isDir = false ∧
    containsStr path (fsep ++ "vendor" ++ fsep) = false ∧
    (∀ e ∈ ex, trimSep path ≠ trimSep e) ∧
    hasSuffixStr path ".go" = true := by
  unfold walkFn at h
  split_ifs at h with h1 h2 h3 h4
  · exact absurd h (List.not_mem_nil p)
  · exact absurd h (List.not_mem_nil p)
  · exact absurd h (List.not_mem_nil p)
  · have hp : p = path := by simpa using h
    refine ⟨hp, by simpa using h3, by simpa using h1, ?_, h4⟩
    intro e he heq
    exact h2 (List.any_eq_true.mpr ⟨e, he, by simpa using heq⟩)
  · exact absurd h (List.not_mem_nil p)

theorem walkTop_fst (ex : List String) (root : String) (n : FSNode) :
    (walkTop ex root n).1 = (walkRec ex root n).1 := by
  rcases hr : walkRec ex root n with ⟨fs, r⟩
  cases r with
  | none => simp [walkTop, hr]
  | some e => cases e <;> simp [walkTop, hr]

mutual
theorem walkRec_emit (ex : List String) (path : String) (n : FSNode) :
    ∀ p ∈ (walkRec ex path n).1,
      containsStr p (fsep ++ "vendor" ++ fsep) = false ∧
      (∀ e ∈ ex, trimSep p ≠ trimSep e) ∧
      hasSuffixStr p ".go" = true := by
  cases n with
  | file name =>
    intro p hp
    have h := walkFn_emit ex path false p (by simpa [walkRec] using hp)
    exact h.1 ▸ ⟨h.2.2.1, h.2.2.2.1, h.2.2.2.2⟩
  | dir name children =>
    intro p hp
    rw [walkRec] at hp
    rcases hw : (walkFn ex path true).2 with _ | e
    · rw [hw] at hp
      exact walkChildren_emit ex path children p hp
    · rw [hw] at hp
      exact absurd hp (List.not_mem_nil p)

theorem walkChildren_emit (ex : List String) (path : String) (cs : List FSNode) :
    ∀ p ∈ (walkChildren ex path cs).1,
      containsStr p (fsep ++ "vendor" ++ fsep) = false ∧
      (∀ e ∈ ex, trimSep p ≠ trimSep e) ∧
      hasSuffixStr p ".go" = true := by
  cases cs with
  | nil =>
    intro p hp
    exact absurd hp (List.not_mem_nil p)
  | cons c rest =>
    intro p hp
    rw [walkChildren] at hp
    rcases hr : walkRec ex (path ++ fsep ++ c.name) c with ⟨fs, r⟩
    rw [hr] at hp
    have hfs : ∀ q ∈ fs, containsStr q (fsep ++ "vendor" ++ fsep) = false ∧
        (∀ e ∈ ex, trimSep q ≠ trimSep e) ∧ hasSuffixStr q ".go" = true := by
      intro q hq
      exact walkRec_emit ex (path ++ fsep ++ c.name) c q (by rw [hr]; exact hq)
    cases r with
    | none =>
      rcases hc : walkChildren ex path rest with ⟨fs2, r2⟩
      rw [hc] at hp
      simp only [List.mem_append] at hp
      rcases hp with hp | hp
      · exact hfs p hp
      · exact walkChildren_emit ex path rest p (by rw [hc]; exact hp)
    | some e =>
      cases e with
      | skipDir =>
        by_cases hd : c.isDir = true
        · rw [hd] at hp
          simp only [if_true] at hp
          rcases hc : walkChildren ex path rest with ⟨fs2, r2⟩
          rw [hc] at hp
          simp only [List.mem_append] at hp
          rcases hp with hp | hp
          · exact hfs p hp
          · exact walkChildren_emit ex path rest p (by rw [hc]; exact hp)
        · rw [Bool.not_eq_true] at hd
          rw [hd] at hp
          simp only [Bool.false_eq_true, if_false] at hp
          exact hfs p hp
      | err m => exact hfs p hp
end

theorem walkRec_pruned (ex : List String) (path : String) (n : FSNode)
    (h : containsStr path (fsep ++ "vendor" ++ fsep) = true ∨
      ∃ e ∈ ex, trimSep path = trimSep e) :
    walkRec ex path n = ([], some WErr.skipDir) := by
  have hw : ∀ b, walkFn ex path b = ([], some WErr.skipDir) := by
    intro b
    refine walkFn_skip ex path b ?_
    rcases h with h | ⟨e, he, heq⟩
    · exact Or.inl h
    · exact Or.inr (List.any_eq_true.mpr ⟨e, he, by simpa using heq⟩)
  cases n with
  | file name => simpa [walkRec] using hw false
  | dir name children => simp [walkRec, hw true]

theorem walkFn_fst_sublist (ex : List String) (path : String) (b : Bool) :
    (walkFn ex path b).1.Sublist [path] := by
  unfold walkFn
  split_ifs <;> simp

mutual
theorem walkRec_sublist (ex : List String) (path : String) (n : FSNode) :
    (walkRec ex path n).1.Sublist (filePaths path n) := by
  cases n with
  | file name =>
    rw [walkRec, filePaths]
    exact walkFn_fst_sublist ex path false
  | dir name children =>
    rw [walkRec, filePaths]
    rcases hw : (walkFn ex path true).2 with _ | e
    · exact walkChildren_sublist ex path children
    · simp

theorem walkChildren_sublist (ex : List String) (path : String) (cs : List FSNode) :
    (walkChildren ex path cs).1.Sublist (filePathsList path cs) := by
  cases cs with
  | nil => simp [walkChildren, filePathsList]
  | cons c rest =>
    rw [walkChildren, filePathsList]
    rcases hr : walkRec ex (path ++ fsep ++ c.name) c with ⟨fs, r⟩
    have hfs : fs.Sublist (filePaths (path ++ fsep ++ c.name) c) := by
      have := walkRec_sublist ex (path ++ fsep ++ c.name) c
      rwa [hr] at this
    cases r with
    | none =>
      rcases hc : walkChildren ex path rest with ⟨fs2, r2⟩
      have hfs2 : fs2.Sublist (filePathsList path rest) := by
        have := walkChildren_sublist ex path rest
        rwa [hc] at this
      simpa using hfs.append hfs2
    | some e =>
      cases e with
      | skipDir =>
        by_cases hd : c.isDir = true
        · rw [hd]
          simp only [if_true]
          rcases hc : walkChildren ex path rest with ⟨fs2, r2⟩
          have hfs2 : fs2.Sublist (filePathsList path rest) := by
            have := walkChildren_sublist ex path rest
            rwa [hc] at this
          simpa using hfs.append hfs2
        · rw [Bool.not_eq_true] at hd
          rw [hd]
          simp only [Bool.false_eq_true, if_false]
          exact hfs.trans (List.sublist_append_left _ _)
      | err m => exact hfs.trans (List.sublist_append_left _ _)
end

/- ===== Claims C5, C7, C10: the walker ===== -/

/-- Claim C5 is false as stated for exclusions lying strictly above a
root: walking root `/a/b` with exclusion `/a` delivers `/a/b/x.go`, a file
lying inside the excluded path `/a` — the walk never visits a path equal
to the exclusion, so the check at main.go line 185 never fires. -/
theorem c5_counterexample :
    (walkTop ["/a"] "/a/b" (FSNode.dir "b" [FSNode.file "x.go"])).1 = ["/a/b/x.go"] ∧
    "/a/b/x.go" = trimSep "/a" ++ fsep ++ "b/x.go" := by
  exact ⟨by decide, by decide⟩

/-- Claim C5 (amended): every delivered path itself contains no
separator-wrapped `vendor` segment and never equals (after stripping one
trailing separator from each side) any exclusion; and whenever the
traversal reaches a path that contains the vendor segment or matches an
exclusion, that entire subtree is pruned and delivers nothing.  Exclusions
the traversal never visits — in particular proper ancestors of a root —
do not prune that root's files. -/
theorem c5_amended_vendor_exclusion_pruning (ex : List String) (root : String) (n : FSNode) :
    (∀ p ∈ (walkTop ex root n).1,
      containsStr p (fsep ++ "vendor" ++ fsep) = false ∧
      ∀ e ∈ ex, trimSep p ≠ trimSep e) ∧
    (∀ (path : String) (m : FSNode),
      (containsStr path (fsep ++ "vendor" ++ fsep) = true ∨
        ∃ e ∈ ex, trimSep path = trimSep e) →
      (walkRec ex path m).1 = []) := by
  constructor
  · intro p hp
    rw [walkTop_fst] at hp
    have h := walkRec_emit ex root n p hp
    exact ⟨h.1, h.2.1⟩
  · intro path m h
    rw [walkRec_pruned ex path m h]

/-- Witness for the amended C5: with root `/r` and exclusion `/r/skip`,
the delivered file `/r/a.go` passes both checks, and the walk of the
excluded subtree delivers nothing. -/
theorem c5_amended_vendor_exclusion_pruning_witness :
    (containsStr "/r/a.go" (fsep ++ "vendor" ++ fsep) = false ∧
      ∀ e ∈ ["/r/skip"], trimSep "/r/a.go" ≠ trimSep e) ∧
    (walkRec ["/r/skip"] "/r/skip" (FSNode.dir "skip" [FSNode.file "s.go"])).1 = [] := by
  have h := c5_amended_vendor_exclusion_pruning ["/r/skip"] "/r"
    (FSNode.dir "r" [FSNode.file "a.go", FSNode.dir "skip" [FSNode.file "s.go"]])
  exact ⟨h.1 "/r/a.go" (by decide),
    h.2 "/r/skip" (FSNode.dir "skip" [FSNode.file "s.go"])
      (Or.inr ⟨"/r/skip", by decide, by decide⟩)⟩

/-- Claim C7: every path the walker delivers is the path of a file node
(never a directory), ends in `.go`, and is delivered exactly once per
traversal.  Distinctness of the filesystem's paths (true of a real
filesystem) is the stated hypothesis. -/
theorem c7_walker_delivery (ex : List String) (root : String) (n : FSNode)
    (hnd : (dirPaths root n ++ filePaths root n).Nodup) :
    (∀ p ∈ (walkTop ex root n).1,
      p ∈ filePaths root n ∧ p ∉ dirPaths root n ∧ hasSuffixStr p ".go" = true) ∧
    (walkTop ex root n).1.Nodup := by
  have hsub : (walkTop ex root n).1.Sublist (filePaths root n) := by
    rw [walkTop_fst]
    exact walkRec_sublist ex root n
  have hfp : (filePaths root n).Nodup := by
    rcases List.nodup_append.mp hnd with ⟨_, h2, _⟩
    exact h2
  constructor
  · intro p hp
    have hpf : p ∈ filePaths root n := hsub.subset hp
    refine ⟨hpf, ?_, ?_⟩
    · intro hpd
      exact (List.disjoint_of_nodup_append hnd) hpd hpf
    · have h := walkRec_emit ex root n p (by rwa [walkTop_fst] at hp)
      exact h.2.2
  · exact hfp.sublist hsub

/-- Witness for C7 at a small tree with a `.go` file, a non-`.go` file
and a subdirectory. -/
theorem c7_walker_delivery_witness :
    ("/r/a.go" ∈ (walkTop [] "/r"
        (FSNode.dir "r" [FSNode.file "a.go", FSNode.file "b.txt",
          FSNode.dir "d" [FSNode.file "c.go"]])).1 ∧
      "/r/a.go" ∈ filePaths "/r"
        (FSNode.dir "r" [FSNode.file "a.go", FSNode.file "b.txt",
          FSNode.dir "d" [FSNode.file "c.go"]]) ∧
      "/r/a.go" ∉ dirPaths "/r"
        (FSNode.dir "r" [FSNode.file "a.go", FSNode.file "b.txt",
          FSNode.dir "d" [FSNode.file "c.go"]]) ∧
      hasSuffixStr "/r/a.go" ".go" = true) ∧
    (walkTop []  "/r"
      (FSNode.dir "r" [FSNode.file "a.go", FSNode.file "b.txt",
        FSNode.dir "d" [FSNode.file "c.go"]])).1.Nodup := by
  have h := c7_walker_delivery [] "/r"
    (FSNode.dir "r" [FSNode.file "a.go", FSNode.file "b.txt",
      FSNode.dir "d" [FSNode.file "c.go"]]) (by decide)
  exact ⟨⟨by decide, h.1 "/r/a.go" (by decide)⟩, h.2⟩

/-- Claim C10: when the walk reaches a non-directory entry whose path
matches an exclusion, the callback's `SkipDir` makes `filepath.Walk`
discard every remaining entry of the containing directory: the loop over
that directory's entries stops at the matching file, whatever `rest`
holds. -/
theorem c10_excluded_file_skips_rest (ex : List String) (path name : String)
    (rest : List FSNode)
    (h : ∃ e ∈ ex, trimSep (path ++ fsep ++ name) = trimSep e) :
    walkChildren ex path (FSNode.file name :: rest) = ([], some WErr.skipDir) := by
  have hr : walkRec ex (path ++ fsep ++ name) (FSNode.file name) = ([], some WErr.skipDir) :=
    walkRec_pruned ex (path ++ fsep ++ name) (FSNode.file name) (Or.inr h)
  simp [walkChildren, FSNode.name, hr, FSNode.isDir]

/-- Witness for C10: excluding the plain file `/r/skipme` also discards
the later sibling `z.go`, which would have been delivered without the
exclusion. -/
theorem c10_excluded_file_skips_rest_witness :
    walkChildren ["/r/skipme"] "/r" [FSNode.file "skipme", FSNode.file "z.go"] =
      ([], some WErr.skipDir) ∧
    (walkChildren [] "/r" [FSNode.file "skipme", FSNode.file "z.go"]).1 = ["/r/z.go"] := by
  refine ⟨c10_excluded_file_skips_rest ["/r/skipme"] "/r" "skipme" [FSNode.file "z.go"]
    ⟨"/r/skipme", by decide, by decide⟩, by decide⟩

/- ===== The export-extraction pass (main.go lines 212-249) =====

`parser.ParseFile` and `packages.Load` are external collaborators; they
are modelled as an oracle giving, per file path, the parse result (a tree
or a parse-error message) and the loaded package list (pairs of package
name and package path). -/

structure World where
  parse : String → Except String GoFile
  pkgs : String → List (String × String)

/-- The package-path selection loop of `findExports` (main.go lines
228-233): the last loaded package with a non-empty name wins; absent one,
the path stays empty. -/
def resolvePkgPath (pkgs : List (String × String)) : String :=
  pkgs.foldl (fun acc pk => if pk.1 ≠ "" then pk.2 else acc) ""

/-- The per-file callback of `findExports` (main.go lines 216-244): a
parse failure aborts with an error wrapped with the file's path; an empty
resolved package path skips the file ("probably a test"); otherwise the
export visitor walks the file with the quote-trimmed package path. -/
def findExportsStep (w : World) (globals : Finset String) (file : String) :
    Except String (Finset String) :=
  match w.parse file with
  | .error e => .error ("could not parse " ++ file ++ ": " ++ e)
  | .ok f =>
    if resolvePkgPath (w.pkgs file) = "" then .ok globals
    else .ok (exportWalkFile f (trimQuotes (resolvePkgPath (w.pkgs file))) globals)

/-- The consumer loop of the export pass: files are processed in delivery
order, stopping at the first callback failure. -/
def findExportsLoop (w : World) : List String → Finset String → Except String (Finset String)
  | [], globals => .ok globals
  | f :: rest, globals =>
    match findExportsStep w globals f with
    | .error e => .error e
    | .ok g2 => findExportsLoop w rest g2

/-- Model of `findExports` (main.go lines 212-249): walk the roots, feed
every delivered file to the callback, and wrap any failure in
"failed to find exports"; on failure no set is returned. -/
def findExportsRun (w : World) (roots : List (String × FSNode)) (ex : List String) :
    Except String (Finset String) :=
  match findExportsLoop w (walkRoots ex roots).1 ∅ with
  | .error e => .error ("failed to find exports: " ++ e)
  | .ok g =>
    match (walkRoots ex roots).2 with
    | some e => .error ("failed to find exports: " ++ e)
    | none => .ok g

/- ===== Claims C6, C8, C9: the extraction pass ===== -/

theorem deliver_failfast (fn : String → Option String) (pre : List String)
    (f : String) (post : List String) (e : String)
    (hpre : ∀ g ∈ pre, fn g = none) (hf : fn f = some e) :
    deliver fn (pre ++ f :: post) = (pre ++ [f], some e) := by
  induction pre with
  | nil => simp [deliver, hf]
  | cons g pre ih =>
    have hg : fn g = none := hpre g (List.mem_cons_self g pre)
    have ih2 := ih (fun q hq => hpre q (List.mem_cons_of_mem g hq))
    simp [deliver, hg, ih2]

theorem findExportsLoop_failfast (w : World) (pre : List String) (f : String)
    (post : List String) (msg : String)
    (hpreOk : ∀ g ∈ pre, ∃ gf, w.parse g = .ok gf)
    (hparse : w.parse f = .error msg) :
    ∀ acc, findExportsLoop w (pre ++ f :: post) acc =
      .error ("could not parse " ++ f ++ ": " ++ msg) := by
  induction pre with
  | nil =>
    intro acc
    simp [findExportsLoop, findExportsStep, hparse]
  | cons g pre ih =>
    intro acc
    obtain ⟨gf, hgf⟩ := hpreOk g (List.mem_cons_self g pre)
    have ih2 := ih (fun q hq => hpreOk q (List.mem_cons_of_mem g hq))
    by_cases hpkg : resolvePkgPath (w.pkgs g) = ""
    · simp [findExportsLoop, findExportsStep, hgf, hpkg, ih2]
    · simp [findExportsLoop, findExportsStep, hgf, hpkg, ih2]

/-- Claim C6: a callback failure stops the pipeline — the failing file is
the last one delivered, the loop's result is the parse error wrapped with
the offending file's path regardless of the files after it, and the
overall result of the pass is that failure wrapped in
"failed to find exports", with no partial set returned. -/
theorem c6_visit_error_failfast (fn : String → Option String) (w : World)
    (pre : List String) (f : String) (post : List String) (e msg : String)
    (acc : Finset String)
    (hpre : ∀ g ∈ pre, fn g = none) (hf : fn f = some e)
    (hpreOk : ∀ g ∈ pre, ∃ gf, w.parse g = .ok gf)
    (hparse : w.parse f = .error msg) :
    deliver fn (pre ++ f :: post) = (pre ++ [f], some e) ∧
    findExportsLoop w (pre ++ f :: post) acc =
      .error ("could not parse " ++ f ++ ": " ++ msg) ∧
    (∀ (roots : List (String × FSNode)) (ex : List String),
      (walkRoots ex roots).1 = pre ++ f :: post →
      findExportsRun w roots ex =
        .error ("failed to find exports: " ++ ("could not parse " ++ f ++ ": " ++ msg))) := by
  refine ⟨deliver_failfast fn pre f post e hpre hf,
    findExportsLoop_failfast w pre f post msg hpreOk hparse acc, ?_⟩
  intro roots ex hwalk
  simp only [findExportsRun, hwalk,
    findExportsLoop_failfast w pre f post msg hpreOk hparse]

/-- Claim C8: a file whose module-path resolution yields no buildable
package (empty package path) records nothing and raises no error; the
loop continues with the remaining files as if the file were absent. -/
theorem c8_unattributable_skipped (w : World) (f : String) (rest : List String)
    (acc : Finset String) (gf : GoFile)
    (hparse : w.parse f = .ok gf) (hpkg : resolvePkgPath (w.pkgs f) = "") :
    findExportsLoop w (f :: rest) acc = findExportsLoop w rest acc := by
  simp [findExportsLoop, findExportsStep, hparse, hpkg]

/-- The export set a single file contributes, determined by the oracle. -/
def fileContrib (w : World) (f : String) : Finset String :=
  match w.parse f with
  | .error _ => ∅
  | .ok gf =>
    if resolvePkgPath (w.pkgs f) = "" then ∅
    else exportWalkFile gf (trimQuotes (resolvePkgPath (w.pkgs f))) ∅

theorem exportWalkFile_union (f : GoFile) (pkg : String) (acc : Finset String) :
    exportWalkFile f pkg acc = acc ∪ exportWalkFile f pkg ∅ := by
  ext x
  rw [Finset.mem_union, exportWalkFile_mem, exportWalkFile_mem f pkg ∅ x]
  simp only [Finset.not_mem_empty, false_or]

theorem findExportsLoop_ok (w : World) (fs : List String)
    (hok : ∀ f ∈ fs, ∃ gf, w.parse f = .ok gf) :
    ∀ acc, findExportsLoop w fs acc =
      .ok (fs.foldl (fun a f => a ∪ fileContrib w f) acc) := by
  induction fs with
  | nil => intro acc; rfl
  | cons f rest ih =>
    intro acc
    obtain ⟨gf, hgf⟩ := hok f (List.mem_cons_self f rest)
    have ih2 := ih (fun q hq => hok q (List.mem_cons_of_mem f hq))
    by_cases hpkg : resolvePkgPath (w.pkgs f) = ""
    · simp [findExportsLoop, findExportsStep, hgf, hpkg, ih2, fileContrib]
    · simp only [findExportsLoop, findExportsStep, hgf, hpkg, if_neg hpkg, ih2,
        List.foldl_cons]
      rw [exportWalkFile_union gf (trimQuotes (resolvePkgPath (w.pkgs f))) acc]
      simp [fileContrib, hgf, hpkg]

theorem mem_foldl_union (contrib : String → Finset String) (fs : List String)
    (acc : Finset String) (x : String) :
    x ∈ fs.foldl (fun a f => a ∪ contrib f) acc ↔ x ∈ acc ∨ ∃ f ∈ fs, x ∈ contrib f := by
  induction fs generalizing acc with
  | nil => simp
  | cons f rest ih =>
    rw [List.foldl_cons, ih]
    simp only [Finset.mem_union, List.mem_cons]
    constructor
    · rintro ((h | h) | ⟨g, hg, hx⟩)
      · exact Or.inl h
      · exact Or.inr ⟨f, Or.inl rfl, h⟩
      · exact Or.inr ⟨g, Or.inr hg, hx⟩
    · rintro (h | ⟨g, (rfl | hg), hx⟩)
      · exact Or.inl (Or.inl h)
      · exact Or.inl (Or.inr hx)
      · exact Or.inr ⟨g, hg, hx⟩

/-- Claim C9: export extraction is deterministic — a run is a pure
function of its inputs, and the resulting export set does not even depend
on the order in which the walk delivers the files (insertion into the
shared set is commutative and idempotent), which is why Go's
nondeterministic map iteration and goroutine scheduling cannot affect
the result. -/
theorem c9_export_extraction_deterministic (w : World) (fs1 fs2 : List String)
    (hperm : fs1.Perm fs2)
    (hok : ∀ f ∈ fs1, ∃ gf, w.parse f = .ok gf) :
    (∀ (roots : List (String × FSNode)) (ex : List String),
      findExportsRun w roots ex = findExportsRun w roots ex) ∧
    ∃ g : Finset String, findExportsLoop w fs1 ∅ = .ok g ∧ findExportsLoop w fs2 ∅ = .ok g := by
  refine ⟨fun roots ex => rfl, ?_⟩
  have hok2 : ∀ f ∈ fs2, ∃ gf, w.parse f = .ok gf :=
    fun f hf => hok f (hperm.mem_iff.mpr hf)
  rw [findExportsLoop_ok w fs1 hok ∅, findExportsLoop_ok w fs2 hok2 ∅]
  refine ⟨_, rfl, ?_⟩
  congr 1
  apply Finset.ext
  intro x
  rw [mem_foldl_union, mem_foldl_union]
  simp only [Finset.not_mem_empty, false_or, hperm.mem_iff]

/-- A concrete oracle: `/lib/a.go` parses to the `var X = 1` file under
package `M`, `/lib/bad.go` fails to parse, `/lib/t.go` parses to an empty
file with no buildable package. -/
def worldC : World :=
  { parse := fun file =>
      if file = "/lib/a.go" then .ok fileC4
      else if file = "/lib/bad.go" then .error "syntax"
      else if file = "/lib/t.go" then .ok (GoFile.mk [])
      else .error "no such file",
    pkgs := fun file =>
      if file = "/lib/a.go" then [("main", "M")]
      else [] }

/-- Witness for C6 at a concrete pipeline: the callback fails on
`/lib/bad.go`; nothing after it is delivered, and the pass fails with the
wrapped parse error. -/
theorem c6_visit_error_failfast_witness :
    deliver (fun file => if file = "/lib/bad.go" then some "boom" else none)
      (["/lib/a.go"] ++ "/lib/bad.go" :: ["/lib/z.go"]) =
      (["/lib/a.go"] ++ ["/lib/bad.go"], some "boom") ∧
    findExportsLoop worldC (["/lib/a.go"] ++ "/lib/bad.go" :: ["/lib/z.go"]) ∅ =
      .error ("could not parse " ++ "/lib/bad.go" ++ ": " ++ "syntax") ∧
    findExportsRun worldC
      [("/lib", FSNode.dir "lib" [FSNode.file "a.go", FSNode.file "bad.go", FSNode.file "z.go"])]
      [] =
      .error ("failed to find exports: " ++
        ("could not parse " ++ "/lib/bad.go" ++ ": " ++ "syntax")) := by
  have h := c6_visit_error_failfast
    (fun file => if file = "/lib/bad.go" then some "boom" else none) worldC
    ["/lib/a.go"] "/lib/bad.go" ["/lib/z.go"] "boom" "syntax" ∅
    (by intro g hg; simp at hg; subst hg; rfl)
    (by rfl)
    (by intro g hg; simp at hg; subst hg; exact ⟨fileC4, rfl⟩)
    (by rfl)
  exact ⟨h.1, h.2.1,
    h.2.2 [("/lib", FSNode.dir "lib" [FSNode.file "a.go", FSNode.file "bad.go", FSNode.file "z.go"])]
      [] (by decide)⟩

/-- Witness for C8: the unattributable `/lib/t.go` is skipped and the loop
continues with the remaining files. -/
theorem c8_unattributable_skipped_witness :
    findExportsLoop worldC ["/lib/t.go", "/lib/a.go"] ∅ =
      findExportsLoop worldC ["/lib/a.go"] ∅ :=
  c8_unattributable_skipped worldC "/lib/t.go" ["/lib/a.go"] ∅ (GoFile.mk []) rfl rfl

/-- Witness for C9: the two delivery orders of the same two files give the
same export set. -/
theorem c9_export_extraction_deterministic_witness :
    findExportsLoop worldC ["/lib/t.go", "/lib/a.go"] ∅ =
      findExportsLoop worldC ["/lib/a.go", "/lib/t.go"] ∅ := by
  have h := c9_export_extraction_deterministic worldC
    ["/lib/t.go", "/lib/a.go"] ["/lib/a.go", "/lib/t.go"]
    (List.Perm.swap "/lib/a.go" "/lib/t.go" [])
    (by
      intro f hf
      simp at hf
      rcases hf with rfl | rfl
      · exact ⟨GoFile.mk [], rfl⟩
      · exact ⟨fileC4, rfl⟩)
  obtain ⟨g, h1, h2⟩ := h.2
  rw [h1, h2]
